import Mathlib

/-!
Verification of the `tev` backup content engine against its specification.

The Rust sources are shallowly embedded: machine integers become `Nat`
(with explicit wrapping where the source can overflow), fallible code
returns `Except`/`Option`, and a Rust panic (slice index out of range,
`expect`, …) is modelled by the dedicated `Res.panic` outcome.  Hash maps
(`std::collections::HashMap`) are modelled as association lists with
last-insert-wins lookup (`hashLookup`), which is the observable semantics
of repeated `HashMap::insert`.
-/

namespace Tev

/-- Outcome of a Rust computation that can return a value, return a typed
error, or panic (`expect`/slice-index panics are `panic`). -/
inductive Res (ε α : Type) where
  | ok (a : α)
  | err (e : ε)
  | panic
  deriving Repr, DecidableEq

/-- Last-insert-wins lookup in an association list: the observable
semantics of a `HashMap` built by successive `insert`s. -/
def hashLookup {κ ν : Type} [DecidableEq κ] : List (κ × ν) → κ → Option ν
  | [], _ => none
  | e :: rest, k =>
    match hashLookup rest k with
    | some v => some v
    | none => if e.1 = k then some e.2 else none

theorem hashLookup_append {κ ν : Type} [DecidableEq κ] (l₁ l₂ : List (κ × ν)) (k : κ) :
    hashLookup (l₁ ++ l₂) k =
      match hashLookup l₂ k with
      | some v => some v
      | none => hashLookup l₁ k := by
  induction l₁ with
  | nil => simp only [List.nil_append, hashLookup]; cases hashLookup l₂ k <;> rfl
  | cons e rest ih =>
    simp only [List.cons_append, hashLookup, List.append_eq, ih]
    cases hashLookup l₂ k <;> cases hashLookup rest k <;> rfl

theorem hashLookup_eq_none_iff {κ ν : Type} [DecidableEq κ] (l : List (κ × ν)) (k : κ) :
    hashLookup l k = none ↔ k ∉ l.map Prod.fst := by
  induction l with
  | nil => simp [hashLookup]
  | cons e rest ih =>
    simp only [hashLookup, List.map_cons, List.mem_cons]
    cases h : hashLookup rest k with
    | some v =>
      have hk : k ∈ rest.map Prod.fst := by
        by_contra hnk
        rw [ih.mpr hnk] at h
        cases h
      simp [hk]
    | none =>
      have hk : k ∉ rest.map Prod.fst := ih.mp h
      by_cases he : e.1 = k
      · subst he
        simp [hk]
      · have hke : ¬ k = e.1 := fun hh => he hh.symm
        simp [he, hk, hke]

theorem hashLookup_mem {κ ν : Type} [DecidableEq κ] (l : List (κ × ν)) (k : κ) (v : ν) :
    hashLookup l k = some v → (k, v) ∈ l := by
  induction l with
  | nil => intro h; simp [hashLookup] at h
  | cons e rest ih =>
    simp only [hashLookup]
    cases h : hashLookup rest k with
    | some w =>
      intro hv
      have hw : w = v := by injection hv
      subst hw
      exact List.mem_cons_of_mem _ (ih h)
    | none =>
      intro hv
      by_cases he : e.1 = k
      · rw [if_pos he] at hv
        have hv2 : e.2 = v := by injection hv
        exact List.mem_cons.mpr (Or.inl (by rw [← he, ← hv2]))
      · rw [if_neg he] at hv
        cases hv

theorem hashLookup_nodup_mem {κ ν : Type} [DecidableEq κ] (l : List (κ × ν))
    (hn : (l.map Prod.fst).Nodup) (k : κ) (v : ν) (hm : (k, v) ∈ l) :
    hashLookup l k = some v := by
  induction l with
  | nil => cases hm
  | cons e rest ih =>
    simp only [List.map_cons, List.nodup_cons] at hn
    simp only [hashLookup]
    rcases List.mem_cons.mp hm with he | hr
    · subst he
      cases h : hashLookup rest k with
      | some w => exact absurd (List.mem_map_of_mem Prod.fst (hashLookup_mem _ _ _ h)) hn.1
      | none => simp
    · rw [ih hn.2 hr]

/-! ## Data model shared by the VFS claims

From `src/commands/backup/mount.rs` (`Node`, `steam_to_filetype`,
`BackupFs::get_node`) and the protobuf fields the core consumes
(`FileMapping`, `ContentManifestMetadata`).  Protobuf messages are
opaque records of the fields the code reads. -/

/-- A chunk reference inside a file mapping (`sha`, `offset`, `cb_original`). -/
structure FChunk where
  sha : List Nat
  offset : Nat
  cb_original : Nat
  deriving Repr, DecidableEq

/-- The fields of `content_manifest_payload::FileMapping` that the core reads. -/
structure FileMapping where
  filename : String
  flags : Nat
  size : Nat
  chunks : List FChunk
  deriving Repr, DecidableEq

/-- The fields of `ContentManifestMetadata` that the core reads. -/
structure MMeta where
  depot_id : Nat
  creation_time : Nat
  filenames_encrypted : Bool
  unique_chunks : Nat
  deriving Repr, DecidableEq

/-- `Node` from `mount.rs`: a real file-mapping node or a synthetic directory. -/
inductive Node where
  | real (metadata : MMeta) (path : List String) (file_mapping : FileMapping)
  | synthetic (metadata : MMeta) (name : String)
  deriving Repr, DecidableEq

namespace Node

def metadata : Node → MMeta
  | real m _ _ => m
  | synthetic m _ => m

/-- `Node::file_mapping`. -/
def fileMapping : Node → Option FileMapping
  | real _ _ f => some f
  | synthetic _ _ => none

/-- The byte size from `Node::size` (synthetic directories have size 0). -/
def size (n : Node) : Nat :=
  (n.fileMapping.map FileMapping.size).getD 0

end Node

/-- `steam_to_filetype`/`is_dir`: directory iff flag bit `0x40` is set, and
synthetic nodes are always directories. -/
def isDirMapping (fm : Option FileMapping) : Bool :=
  match fm with
  | some f => f.flags &&& 0x40 != 0
  | none => true

/-- `BackupFs::get_node`: inodes are `index + 2`; `ino.checked_sub(2)`
underflows for the root inode 1, so the root is never found in the table. -/
def getNode (inodes : List Node) (ino : Nat) : Option Node :=
  if ino < 2 then none else inodes.get? (ino - 2)

/-! ## C8 — SKU integer-list parsing (`src/formats/sis.rs`, `dict_vec`)

`dict_vec` parses the nested block into a list of `(key, value)` pairs
(each key already parsed as an integer; a non-integer key fails earlier
inside `dict_string`'s `map_res`) and then validates denseness:

    v.into_iter().enumerate()
        .map(|(expected_i, (i, v))| (i == expected_i).then(|| v))
        .collect::<Option<_>>()
-/

/-- The denseness validation of `dict_vec` (sis.rs lines 138–144) applied to
the parsed `(index, value)` entries of an `apps`/`depots` block. -/
def dict_vec_collect {α : Type} (entries : List (Nat × α)) : Option (List α) :=
  entries.enum.mapM fun (expected_i, (i, v)) => if i = expected_i then some v else none

theorem dict_vec_collect_aux {α : Type} (entries : List (Nat × α)) (k : Nat) (vs : List α) :
    ((entries.enumFrom k).mapM fun (expected_i, (i, v)) =>
        if i = expected_i then some v else none) = some vs ↔
      entries.map Prod.fst = List.range' k entries.length ∧ vs = entries.map Prod.snd := by
  induction entries generalizing k vs with
  | nil => simp [List.enumFrom, List.mapM, List.mapM.loop, List.range', eq_comm]
  | cons e rest ih =>
    simp only [List.enumFrom, List.mapM_cons, List.map_cons, List.length_cons, List.range']
    constructor
    · intro h
      simp only [Option.bind_eq_bind, Option.bind_eq_some, Option.pure_def,
        Option.some.injEq] at h
      obtain ⟨b, hb, bs, hbs, hvs⟩ := h
      split at hb
      · next hii =>
        cases hb
        have := (ih (k + 1) bs).mp hbs
        refine ⟨by simp [hii, this.1], by simp [← hvs, this.2]⟩
      · cases hb
    · rintro ⟨hfst, hsnd⟩
      obtain ⟨h1, h2⟩ := List.cons.inj hfst
      have := (ih (k + 1) (rest.map Prod.snd)).mpr ⟨h2, rfl⟩
      simp only [Option.bind_eq_bind, Option.bind_eq_some, Option.pure_def, Option.some.injEq]
      exact ⟨e.2, by simp [h1], rest.map Prod.snd, this, by simp [hsnd]⟩

/-- C8: SKU parsing of the list fields `apps` and `depots` succeeds exactly
when the nested block's (integer-parsed) keys are the dense integers
`0, 1, …` in order; the empty block yields the empty list; any other key
sequence makes `dict_vec` fail (which surfaces as `MalformedSKU`). -/
theorem sku_dict_vec_dense {α : Type} (entries : List (Nat × α)) :
    (∀ vs, dict_vec_collect entries = some vs ↔
        entries.map Prod.fst = List.range entries.length ∧ vs = entries.map Prod.snd) ∧
      dict_vec_collect ([] : List (Nat × α)) = some [] := by
  constructor
  · intro vs
    have h := dict_vec_collect_aux entries 0 vs
    have he : entries.enum = List.enumFrom 0 entries := rfl
    rw [List.range_eq_range']
    rw [dict_vec_collect, he]
    exact h
  · rfl

/-! ## C9 — Windows `create_file`
(`src/commands/backup/mount/windows.rs` lines 128–178). -/

def GENERIC_WRITE : Nat := 0x40000000
def FILE_WRITE_DATA : Nat := 0x0002
def FILE_WRITE_ATTRIBUTES : Nat := 0x0100
def FILE_WRITE_EA : Nat := 0x0010
def FILE_APPEND_DATA : Nat := 0x0004
def FILE_OPEN : Nat := 1
def FILE_DIRECTORY_FILE : Nat := 0x1
def FILE_NON_DIRECTORY_FILE : Nat := 0x40
def ROOT_INODE : Nat := 1

inductive NtStatus where
  | mediaWriteProtected
  | invalidParameter
  | objectNameNotFound
  | notADirectory
  | fileIsADirectory
  deriving Repr, DecidableEq

/-- The result record of a successful `create_file`. -/
structure CreateFileInfo where
  ino : Nat
  is_dir : Bool
  new_file_created : Bool
  deriving Repr, DecidableEq

/-- The Windows back end's state that `create_file` consults: the retained
path index (keys are `\`-prefixed wide strings, modelled as the path key
type `κ`) and the inode table. -/
structure WinFs (κ : Type) where
  path_map : List (κ × Nat)
  inodes : List Node

/-- `BackupFs::create_file` (windows.rs lines 128–178). -/
def create_file {κ : Type} [DecidableEq κ] (fs : WinFs κ) (file_name : κ)
    (desired_access : Nat) (create_disposition : Nat) (create_options : Nat) :
    Res NtStatus CreateFileInfo :=
  if desired_access &&&
      (GENERIC_WRITE ||| FILE_WRITE_DATA ||| FILE_WRITE_ATTRIBUTES |||
        FILE_WRITE_EA ||| FILE_APPEND_DATA) > 0 then
    .err .mediaWriteProtected
  else if create_disposition = FILE_OPEN then
    match hashLookup fs.path_map file_name with
    | none => .err .objectNameNotFound
    | some ino =>
      let dir? : Res NtStatus Bool :=
        if ino = ROOT_INODE then .ok true
        else
          match getNode fs.inodes ino with
          | some node => .ok (isDirMapping node.fileMapping)
          | none => .panic
      match dir? with
      | .panic => .panic
      | .err e => .err e
      | .ok is_dir =>
        if create_options &&& FILE_DIRECTORY_FILE > 0 && !is_dir then
          .err .notADirectory
        else if create_options &&& FILE_NON_DIRECTORY_FILE > 0 && is_dir then
          .err .fileIsADirectory
        else
          .ok { ino := ino, is_dir := is_dir, new_file_created := false }
  else
    .err .invalidParameter

/-- C9: any `create_file` whose desired access mask includes generic-write,
file-write-data, file-write-attributes, file-write-ea or file-append-data
fails with `MediaWriteProtected`, before any name resolution; otherwise any
create disposition other than `FILE_OPEN` fails with `InvalidParameter`. -/
theorem create_file_write_protected {κ : Type} [DecidableEq κ] (fs : WinFs κ)
    (file_name : κ) (desired_access create_disposition create_options : Nat) :
    (desired_access &&&
        (GENERIC_WRITE ||| FILE_WRITE_DATA ||| FILE_WRITE_ATTRIBUTES |||
          FILE_WRITE_EA ||| FILE_APPEND_DATA) > 0 →
      create_file fs file_name desired_access create_disposition create_options =
        .err .mediaWriteProtected) ∧
    (desired_access &&&
        (GENERIC_WRITE ||| FILE_WRITE_DATA ||| FILE_WRITE_ATTRIBUTES |||
          FILE_WRITE_EA ||| FILE_APPEND_DATA) = 0 →
      create_disposition ≠ FILE_OPEN →
      create_file fs file_name desired_access create_disposition create_options =
        .err .invalidParameter) := by
  constructor
  · intro h
    simp [create_file, h]
  · intro h hd
    simp [create_file, h, hd]

/-- Witness for C9 at concrete inputs: access mask `FILE_WRITE_DATA` is
write-protected, and disposition `FILE_CREATE = 2` with no write access is
rejected as invalid. -/
theorem create_file_write_protected_witness :
    (2 &&& (GENERIC_WRITE ||| FILE_WRITE_DATA ||| FILE_WRITE_ATTRIBUTES |||
        FILE_WRITE_EA ||| FILE_APPEND_DATA) > 0 ∧
      create_file (⟨[], []⟩ : WinFs Nat) 0 2 1 0 = .err .mediaWriteProtected) ∧
    (create_file (⟨[], []⟩ : WinFs Nat) 0 0 2 0 = .err .invalidParameter) := by
  refine ⟨⟨by decide, (create_file_write_protected ⟨[], []⟩ 0 2 1 0).1 (by decide)⟩, ?_⟩
  exact (create_file_write_protected ⟨[], []⟩ 0 0 2 0).2 (by decide) (by decide)

/-! ## ChunkStore (`src/formats/csd.rs`) — C3, C10

The CSD file is modelled as its byte list; the zip extraction
(`ZipArchive::new(..).by_index(0).read_to_end(..)`, an external library)
and SHA-1 (`sha1` crate) are parameters of the embedding.  A failed zip
extraction is `none`. -/

/-- A chunk descriptor from the CSM (csm.rs `Chunk`). -/
structure Chunk where
  offset : Nat
  uncompressed_length : Nat
  compressed_length : Nat
  deriving Repr, DecidableEq

/-- `ChunkStoreManifest` (csm.rs): encryption flag, depot, on-disk-ordered
chunk descriptors keyed by 20-byte digest. -/
structure ChunkStoreManifest where
  is_encrypted : Bool
  depot : Nat
  chunks : List (List Nat × Chunk)
  deriving Repr, DecidableEq

/-- `ChunkStore` (csd.rs): CSM, CSD bytes, digest→index map, current file
position and the reusable compressed buffer. -/
structure ChunkStore where
  csm : ChunkStoreManifest
  csd : List Nat
  chunk_map : List (List Nat × Nat)
  position : Nat
  buffer : List Nat
  deriving Repr, DecidableEq

/-- The pure tail of `ChunkStore::open` (csd.rs lines 62–78): the digest map
is built by enumerating the CSM chunk list; position starts at 0 and the
reusable buffer empty. -/
def ChunkStore.build (csm : ChunkStoreManifest) (csd : List Nat) : ChunkStore :=
  { csm := csm
    csd := csd
    chunk_map := csm.chunks.enum.map fun (i, e) => (e.1, i)
    position := 0
    buffer := [] }

inductive ChunkError where
  | unknownChunk
  | unsupportedCompression
  | unknownCompression
  | zipError
  | wrongLength
  | wrongDigest
  | ioError
  | taskPanic
  deriving Repr, DecidableEq

inductive Checked where
  | valid (compressed data : List Nat)
  | wrongLength
  | wrongDigest
  deriving Repr, DecidableEq

/-- `decompress_and_verify` (csd.rs lines 128–153).  `decomp` is the
external single-entry zip extraction; `sha1` the external digest.
`&compressed[..2]` panics when fewer than two bytes were read. -/
def decompress_and_verify (decomp : List Nat → Option (List Nat))
    (sha1 : List Nat → List Nat) (compressed : List Nat)
    (uncompressed_length : Nat) (sha : List Nat) : Res ChunkError Checked :=
  if compressed.length < 2 then .panic
  else if compressed.take 2 = [0x56, 0x5A] then .err .unsupportedCompression
  else if compressed.take 2 = [0x50, 0x4B] then
    match decomp compressed with
    | none => .err .zipError
    | some data =>
      if data.length ≠ uncompressed_length then .ok .wrongLength
      else if sha1 data = sha then .ok (.valid compressed data)
      else .ok .wrongDigest
  else .err .unknownCompression

/-- `ChunkStore::chunk_data` (csd.rs lines 81–125).  The read of
`compressed_length` bytes at `chunk.offset` (seek + `read_exact`) succeeds
iff the CSD holds that many bytes there; the descriptor lookup through the
digest map panics (`expect`) if the stored index were out of bounds.
`decompress_and_verify` runs inside `spawn_blocking`, so a panic there
surfaces as a `JoinError`, i.e. an error (`taskPanic`), not a panic.  After
a failed `read_exact` the scratch buffer's contents are unspecified;
modelled as the zero-filled resize. -/
def chunk_data (decomp : List Nat → Option (List Nat)) (sha1 : List Nat → List Nat)
    (cs : ChunkStore) (sha : List Nat) : Res ChunkError (List Nat) × ChunkStore :=
  match hashLookup cs.chunk_map sha with
  | none => (.err .unknownChunk, cs)
  | some idx =>
    match cs.csm.chunks.get? idx with
    | none => (.panic, cs)
    | some (_, chunk) =>
      if chunk.offset + chunk.compressed_length ≤ cs.csd.length then
        match decompress_and_verify decomp sha1
            ((cs.csd.drop chunk.offset).take chunk.compressed_length)
            chunk.uncompressed_length sha with
        | .panic =>
          (.err .taskPanic,
            { cs with position := chunk.offset + chunk.compressed_length, buffer := [] })
        | .err e =>
          (.err e,
            { cs with position := chunk.offset + chunk.compressed_length, buffer := [] })
        | .ok (.valid kept data) =>
          (.ok data,
            { cs with position := chunk.offset + chunk.compressed_length, buffer := kept })
        | .ok .wrongLength =>
          (.err .wrongLength,
            { cs with position := chunk.offset + chunk.compressed_length, buffer := [] })
        | .ok .wrongDigest =>
          (.err .wrongDigest,
            { cs with position := chunk.offset + chunk.compressed_length, buffer := [] })
      else
        (.err .ioError,
          { cs with position := chunk.offset,
                    buffer := List.replicate chunk.compressed_length 0 })

theorem decompress_and_verify_valid (decomp : List Nat → Option (List Nat))
    (sha1 : List Nat → List Nat) (compressed : List Nat) (ul : Nat) (sha kept data : List Nat)
    (h : decompress_and_verify decomp sha1 compressed ul sha = .ok (.valid kept data)) :
    data.length = ul ∧ sha1 data = sha := by
  rw [decompress_and_verify] at h
  split at h
  · cases h
  · split at h
    · cases h
    · split at h
      · split at h
        · cases h
        · next d hd =>
          split at h
          · simp at h
          · next hlen =>
            split at h
            · next hsha =>
              simp only [Res.ok.injEq, Checked.valid.injEq] at h
              obtain ⟨-, hdd⟩ := h
              subst hdd
              exact ⟨by omega, hsha⟩
            · simp at h
      · cases h

/-- C3: for a digest present in the CSM, a successful `chunk_data` returns
bytes whose length is the descriptor's `uncompressed_length` and whose
SHA-1 is the requested digest; a decompressed-length mismatch yields
`WrongLength`, a digest mismatch (with correct length) yields `WrongDigest`;
and the result is determined by the CSD content alone — it does not depend
on the store's current position or scratch buffer. -/
theorem chunk_data_verified (decomp : List Nat → Option (List Nat))
    (sha1 : List Nat → List Nat) (cs : ChunkStore) (sha : List Nat)
    (idx : Nat) (d : List Nat) (chunk : Chunk)
    (hidx : hashLookup cs.chunk_map sha = some idx)
    (hchunk : cs.csm.chunks.get? idx = some (d, chunk)) :
    (∀ data cs', chunk_data decomp sha1 cs sha = (.ok data, cs') →
      data.length = chunk.uncompressed_length ∧ sha1 data = sha) ∧
    (chunk.offset + chunk.compressed_length ≤ cs.csd.length →
      ∀ data, decomp ((cs.csd.drop chunk.offset).take chunk.compressed_length) = some data →
      ((cs.csd.drop chunk.offset).take chunk.compressed_length).take 2 = [0x50, 0x4B] →
      (data.length ≠ chunk.uncompressed_length →
        (chunk_data decomp sha1 cs sha).1 = .err .wrongLength) ∧
      (data.length = chunk.uncompressed_length → sha1 data ≠ sha →
        (chunk_data decomp sha1 cs sha).1 = .err .wrongDigest)) ∧
    (∀ pos₁ pos₂ buf₁ buf₂,
      (chunk_data decomp sha1 { cs with position := pos₁, buffer := buf₁ } sha).1 =
        (chunk_data decomp sha1 { cs with position := pos₂, buffer := buf₂ } sha).1) := by
  have hchunk2 : cs.csm.chunks[idx]? = some (d, chunk) := by
    rw [← List.get?_eq_getElem?]
    exact hchunk
  refine ⟨?_, ?_, ?_⟩
  · intro data cs' h
    simp only [chunk_data, hidx, hchunk] at h
    by_cases hle : chunk.offset + chunk.compressed_length ≤ cs.csd.length
    · rw [if_pos hle] at h
      cases hdv : decompress_and_verify decomp sha1
          ((cs.csd.drop chunk.offset).take chunk.compressed_length)
          chunk.uncompressed_length sha with
      | ok ck =>
        cases ck with
        | valid kept dat =>
          rw [hdv] at h
          simp only [Prod.mk.injEq, Res.ok.injEq] at h
          obtain ⟨hdat, -⟩ := h
          subst hdat
          exact decompress_and_verify_valid _ _ _ _ _ _ _ hdv
        | wrongLength => rw [hdv] at h; simp at h
        | wrongDigest => rw [hdv] at h; simp at h
      | err e => rw [hdv] at h; simp at h
      | panic => rw [hdv] at h; simp at h
    · rw [if_neg hle] at h
      simp at h
  · intro hle data hdec hpk
    have h2 : ¬ ((cs.csd.drop chunk.offset).take chunk.compressed_length).length < 2 := by
      have hl : (((cs.csd.drop chunk.offset).take chunk.compressed_length).take 2).length = 2 := by
        rw [hpk]
        rfl
      rw [List.length_take] at hl
      omega
    constructor
    · intro hne
      have hdv : decompress_and_verify decomp sha1
          ((cs.csd.drop chunk.offset).take chunk.compressed_length)
          chunk.uncompressed_length sha = .ok .wrongLength := by
        rw [decompress_and_verify, if_neg h2, hpk,
          if_neg (by decide : ¬ ([0x50, 0x4B] : List Nat) = [0x56, 0x5A]),
          if_pos (rfl : ([0x50, 0x4B] : List Nat) = [0x50, 0x4B])]
        simp only [hdec]
        rw [if_pos hne]
      simp [chunk_data, hidx, hchunk2, if_pos hle, hdv]
    · intro heq hnsha
      have hdv : decompress_and_verify decomp sha1
          ((cs.csd.drop chunk.offset).take chunk.compressed_length)
          chunk.uncompressed_length sha = .ok .wrongDigest := by
        rw [decompress_and_verify, if_neg h2, hpk,
          if_neg (by decide : ¬ ([0x50, 0x4B] : List Nat) = [0x56, 0x5A]),
          if_pos (rfl : ([0x50, 0x4B] : List Nat) = [0x50, 0x4B])]
        simp only [hdec]
        rw [if_neg (by omega : ¬ data.length ≠ chunk.uncompressed_length), if_neg hnsha]
      simp [chunk_data, hidx, hchunk2, if_pos hle, hdv]
  · intro pos₁ pos₂ buf₁ buf₂
    simp only [chunk_data, hidx, hchunk]

/-- Witness for C3: a one-chunk store where decompression yields 3 bytes of
the right length and digest, exercising all three conjuncts. -/
theorem chunk_data_verified_witness :
    let csm : ChunkStoreManifest :=
      { is_encrypted := false, depot := 5,
        chunks := [([3], { offset := 0, uncompressed_length := 3, compressed_length := 4 })] }
    let cs := ChunkStore.build csm [0x50, 0x4B, 0, 0]
    let decomp : List Nat → Option (List Nat) := fun _ => some [7, 8, 9]
    let sha1 : List Nat → List Nat := fun l => [l.length]
    hashLookup cs.chunk_map [3] = some 0 ∧
      (∀ data cs', chunk_data decomp sha1 cs [3] = (.ok data, cs') →
        data.length = 3 ∧ sha1 data = [3]) := by
  intro csm cs decomp sha1
  refine ⟨by decide, ?_⟩
  have h := chunk_data_verified decomp sha1 cs [3] 0 [3]
    { offset := 0, uncompressed_length := 3, compressed_length := 4 }
    (by decide) (by decide)
  exact h.1

/-- C10: `chunk_data` with a digest absent from the CSM's digest map returns
the `Unknown chunk` error (no panic), and every index stored in the map —
which `ChunkStore::open` builds by enumerating the chunk list — is within
bounds of the chunk list, so the internal descriptor lookup cannot fail. -/
theorem chunk_map_indices_sound (csm : ChunkStoreManifest) (csd : List Nat) :
    (∀ sha decomp sha1, hashLookup (ChunkStore.build csm csd).chunk_map sha = none →
      chunk_data decomp sha1 (ChunkStore.build csm csd) sha =
        (.err .unknownChunk, ChunkStore.build csm csd)) ∧
    (∀ sha idx, hashLookup (ChunkStore.build csm csd).chunk_map sha = some idx →
      idx < csm.chunks.length ∧ (ChunkStore.build csm csd).csm.chunks.get? idx ≠ none) := by
  constructor
  · intro sha decomp sha1 h
    rw [chunk_data, h]
  · intro sha idx h
    have hmem := hashLookup_mem _ _ _ h
    simp only [ChunkStore.build, List.mem_map] at hmem
    obtain ⟨⟨i, e⟩, hp, heq⟩ := hmem
    injection heq with h1 h2
    subst h2
    have hget : csm.chunks[i]? = some e := List.mk_mem_enum_iff_getElem?.mp hp
    have hlt : i < csm.chunks.length := by
      by_contra hge
      push_neg at hge
      rw [List.getElem?_eq_none hge] at hget
      cases hget
    refine ⟨hlt, ?_⟩
    simp only [ChunkStore.build, List.get?_eq_getElem?]
    rw [hget]
    simp

/-- Witness for C10: a one-chunk store; an absent digest errors, the present
digest's stored index 0 is in bounds. -/
theorem chunk_map_indices_sound_witness :
    let csm : ChunkStoreManifest :=
      { is_encrypted := false, depot := 5,
        chunks := [([3], { offset := 0, uncompressed_length := 3, compressed_length := 4 })] }
    chunk_data (fun _ => none) (fun _ => []) (ChunkStore.build csm [0]) [9] =
        (.err .unknownChunk, ChunkStore.build csm [0]) ∧
      0 < csm.chunks.length := by
  intro csm
  refine ⟨(chunk_map_indices_sound csm [0]).1 [9] (fun _ => none) (fun _ => []) (by decide), ?_⟩
  exact ((chunk_map_indices_sound csm [0]).2 [3] 0 (by decide)).1

/-! ## Depot-manifest codec (`src/formats/manifest.rs`) — C6

The three protobuf messages are opaque to the envelope codec: a message is
modelled as its serialised byte blob (`write_to_bytes`/`parse_from_bytes`
are the identity on blobs).  `u32` length fields truncate modulo `2^32`
exactly as `v.len() as u32` does. -/

def PROTOBUF_PAYLOAD_MAGIC : Nat := 0x71F617D0
def PROTOBUF_METADATA_MAGIC : Nat := 0x1F4812BE
def PROTOBUF_SIGNATURE_MAGIC : Nat := 0x1B81B817
def PROTOBUF_ENDOFMANIFEST_MAGIC : Nat := 0x32C415AB

/-- `Manifest`: payload, metadata and signature as serialised blobs. -/
structure Manifest where
  payload : List Nat
  metadata : List Nat
  signature : List Nat
  deriving Repr, DecidableEq

/-- Little-endian `u32` encoding (`to_le_bytes` of `n as u32`). -/
def toLE32 (n : Nat) : List Nat :=
  [n % 256, n / 256 % 256, n / 65536 % 256, n / 16777216 % 256]

theorem toLE32_length (n : Nat) : (toLE32 n).length = 4 := rfl

/-- The closure `read_u32`: `read_exact` four bytes, `u32::from_le_bytes`. -/
def read_u32 : List Nat → Option (Nat × List Nat)
  | a :: b :: c :: d :: rest => some (a + 256 * b + 65536 * c + 16777216 * d, rest)
  | _ => none

/-- The closure `read_vec`: a `u32` length then that many bytes. -/
def read_vec (bytes : List Nat) : Option (List Nat × List Nat) :=
  match read_u32 bytes with
  | none => none
  | some (len, rest) =>
    if len ≤ rest.length then some (rest.take len, rest.drop len) else none

/-- The record loop of `Manifest::read` (manifest.rs lines 45–75), with fuel
(each iteration consumes at least 4 bytes, so `bytes.length + 1` suffices).
Unknown tags, truncation and missing components all yield `none`
(*MalformedManifest*). -/
def manifest_read_loop :
    Nat → List Nat → Option (List Nat) → Option (List Nat) → Option (List Nat) →
      Option Manifest
  | 0, _, _, _, _ => none
  | fuel + 1, bytes, payload, metadata, signature =>
    match read_u32 bytes with
    | none => none
    | some (tag, rest) =>
      if tag = PROTOBUF_PAYLOAD_MAGIC then
        match read_vec rest with
        | none => none
        | some (buf, rest2) => manifest_read_loop fuel rest2 (some buf) metadata signature
      else if tag = PROTOBUF_METADATA_MAGIC then
        match read_vec rest with
        | none => none
        | some (buf, rest2) => manifest_read_loop fuel rest2 payload (some buf) signature
      else if tag = PROTOBUF_SIGNATURE_MAGIC then
        match read_vec rest with
        | none => none
        | some (buf, rest2) => manifest_read_loop fuel rest2 payload metadata (some buf)
      else if tag = PROTOBUF_ENDOFMANIFEST_MAGIC then
        match payload with
        | none => none
        | some p =>
          match metadata with
          | none => none
          | some m =>
            match signature with
            | none => none
            | some s => some ⟨p, m, s⟩
      else none

/-- `Manifest::read` (manifest.rs lines 40–86). -/
def Manifest.read (bytes : List Nat) : Option Manifest :=
  manifest_read_loop (bytes.length + 1) bytes none none none

/-- `Manifest::write` (manifest.rs lines 88–106): payload record, metadata
record, signature record, end marker. -/
def Manifest.write (m : Manifest) : List Nat :=
  toLE32 PROTOBUF_PAYLOAD_MAGIC ++ toLE32 m.payload.length ++ m.payload ++
    toLE32 PROTOBUF_METADATA_MAGIC ++ toLE32 m.metadata.length ++ m.metadata ++
    toLE32 PROTOBUF_SIGNATURE_MAGIC ++ toLE32 m.signature.length ++ m.signature ++
    toLE32 PROTOBUF_ENDOFMANIFEST_MAGIC

theorem read_u32_toLE32 (n : Nat) (h : n < 4294967296) (rest : List Nat) :
    read_u32 (toLE32 n ++ rest) = some (n, rest) := by
  have harith : n % 256 + 256 * (n / 256 % 256) + 65536 * (n / 65536 % 256) +
      16777216 * (n / 16777216 % 256) = n := by omega
  show some (n % 256 + 256 * (n / 256 % 256) + 65536 * (n / 65536 % 256) +
    16777216 * (n / 16777216 % 256), rest) = some (n, rest)
  rw [harith]

theorem read_vec_exact (buf rest : List Nat) (h : buf.length < 4294967296) :
    read_vec (toLE32 buf.length ++ (buf ++ rest)) = some (buf, rest) := by
  have h1 : read_u32 (toLE32 buf.length ++ (buf ++ rest)) = some (buf.length, buf ++ rest) :=
    read_u32_toLE32 _ h _
  simp only [read_vec, h1]
  rw [if_pos (by simp : buf.length ≤ (buf ++ rest).length)]
  rw [List.take_left, List.drop_left]

theorem manifest_read_loop_payload (fuel : Nat) (buf rest : List Nat)
    (p0 m0 s0 : Option (List Nat)) (h : buf.length < 4294967296) :
    manifest_read_loop (fuel + 1)
        (toLE32 PROTOBUF_PAYLOAD_MAGIC ++ (toLE32 buf.length ++ (buf ++ rest))) p0 m0 s0 =
      manifest_read_loop fuel rest (some buf) m0 s0 := by
  have h1 : read_u32 (toLE32 PROTOBUF_PAYLOAD_MAGIC ++ (toLE32 buf.length ++ (buf ++ rest))) =
      some (PROTOBUF_PAYLOAD_MAGIC, toLE32 buf.length ++ (buf ++ rest)) :=
    read_u32_toLE32 _ (by decide) _
  have h2 : read_vec (toLE32 buf.length ++ (buf ++ rest)) = some (buf, rest) :=
    read_vec_exact _ _ h
  simp only [PROTOBUF_PAYLOAD_MAGIC, PROTOBUF_METADATA_MAGIC, PROTOBUF_SIGNATURE_MAGIC,
    PROTOBUF_ENDOFMANIFEST_MAGIC] at h1 ⊢
  simp only [manifest_read_loop, h1, h2]
  simp [PROTOBUF_PAYLOAD_MAGIC, PROTOBUF_METADATA_MAGIC, PROTOBUF_SIGNATURE_MAGIC,
    PROTOBUF_ENDOFMANIFEST_MAGIC]

theorem manifest_read_loop_metadata (fuel : Nat) (buf rest : List Nat)
    (p0 m0 s0 : Option (List Nat)) (h : buf.length < 4294967296) :
    manifest_read_loop (fuel + 1)
        (toLE32 PROTOBUF_METADATA_MAGIC ++ (toLE32 buf.length ++ (buf ++ rest))) p0 m0 s0 =
      manifest_read_loop fuel rest p0 (some buf) s0 := by
  have h1 : read_u32 (toLE32 PROTOBUF_METADATA_MAGIC ++ (toLE32 buf.length ++ (buf ++ rest))) =
      some (PROTOBUF_METADATA_MAGIC, toLE32 buf.length ++ (buf ++ rest)) :=
    read_u32_toLE32 _ (by decide) _
  have h2 : read_vec (toLE32 buf.length ++ (buf ++ rest)) = some (buf, rest) :=
    read_vec_exact _ _ h
  simp only [PROTOBUF_PAYLOAD_MAGIC, PROTOBUF_METADATA_MAGIC, PROTOBUF_SIGNATURE_MAGIC,
    PROTOBUF_ENDOFMANIFEST_MAGIC] at h1 ⊢
  simp only [manifest_read_loop, h1, h2]
  simp [PROTOBUF_PAYLOAD_MAGIC, PROTOBUF_METADATA_MAGIC, PROTOBUF_SIGNATURE_MAGIC,
    PROTOBUF_ENDOFMANIFEST_MAGIC]

theorem manifest_read_loop_signature (fuel : Nat) (buf rest : List Nat)
    (p0 m0 s0 : Option (List Nat)) (h : buf.length < 4294967296) :
    manifest_read_loop (fuel + 1)
        (toLE32 PROTOBUF_SIGNATURE_MAGIC ++ (toLE32 buf.length ++ (buf ++ rest))) p0 m0 s0 =
      manifest_read_loop fuel rest p0 m0 (some buf) := by
  have h1 : read_u32 (toLE32 PROTOBUF_SIGNATURE_MAGIC ++ (toLE32 buf.length ++ (buf ++ rest))) =
      some (PROTOBUF_SIGNATURE_MAGIC, toLE32 buf.length ++ (buf ++ rest)) :=
    read_u32_toLE32 _ (by decide) _
  have h2 : read_vec (toLE32 buf.length ++ (buf ++ rest)) = some (buf, rest) :=
    read_vec_exact _ _ h
  simp only [PROTOBUF_PAYLOAD_MAGIC, PROTOBUF_METADATA_MAGIC, PROTOBUF_SIGNATURE_MAGIC,
    PROTOBUF_ENDOFMANIFEST_MAGIC] at h1 ⊢
  simp only [manifest_read_loop, h1, h2]
  simp [PROTOBUF_PAYLOAD_MAGIC, PROTOBUF_METADATA_MAGIC, PROTOBUF_SIGNATURE_MAGIC,
    PROTOBUF_ENDOFMANIFEST_MAGIC]

theorem manifest_read_loop_end (fuel : Nat) (rest : List Nat) (p m s : List Nat) :
    manifest_read_loop (fuel + 1) (toLE32 PROTOBUF_ENDOFMANIFEST_MAGIC ++ rest)
        (some p) (some m) (some s) = some ⟨p, m, s⟩ := by
  have h1 : read_u32 (toLE32 PROTOBUF_ENDOFMANIFEST_MAGIC ++ rest) =
      some (PROTOBUF_ENDOFMANIFEST_MAGIC, rest) :=
    read_u32_toLE32 _ (by decide) _
  simp only [PROTOBUF_PAYLOAD_MAGIC, PROTOBUF_METADATA_MAGIC, PROTOBUF_SIGNATURE_MAGIC,
    PROTOBUF_ENDOFMANIFEST_MAGIC] at h1 ⊢
  simp only [manifest_read_loop, h1]
  simp [PROTOBUF_PAYLOAD_MAGIC, PROTOBUF_METADATA_MAGIC, PROTOBUF_SIGNATURE_MAGIC,
    PROTOBUF_ENDOFMANIFEST_MAGIC]

/-- C6: serialising a depot manifest with `Manifest::write` and parsing the
result back with `Manifest::read` succeeds and returns payload, metadata and
signature byte-for-byte equal to the original (whenever each blob fits a
`u32` length field); and the writer emits the records in the order payload,
metadata, signature, end marker. -/
theorem manifest_round_trip (m : Manifest)
    (hp : m.payload.length < 4294967296)
    (hm : m.metadata.length < 4294967296)
    (hs : m.signature.length < 4294967296) :
    Manifest.read (Manifest.write m) = some m ∧
      Manifest.write m =
        (toLE32 PROTOBUF_PAYLOAD_MAGIC ++ toLE32 m.payload.length ++ m.payload) ++
          (toLE32 PROTOBUF_METADATA_MAGIC ++ toLE32 m.metadata.length ++ m.metadata) ++
          (toLE32 PROTOBUF_SIGNATURE_MAGIC ++ toLE32 m.signature.length ++ m.signature) ++
          toLE32 PROTOBUF_ENDOFMANIFEST_MAGIC := by
  constructor
  · have hlen : (Manifest.write m).length + 1 =
        (m.payload.length + m.metadata.length + m.signature.length + 25) + 3 + 1 := by
      simp [Manifest.write, List.length_append, toLE32_length]
      omega
    rw [Manifest.read, hlen]
    set f := m.payload.length + m.metadata.length + m.signature.length + 25 with hf
    simp only [Manifest.write, List.append_assoc]
    rw [show f + 3 + 1 = (f + 3) + 1 from rfl,
      manifest_read_loop_payload _ _ _ _ _ _ hp,
      show f + 3 = (f + 2) + 1 from rfl,
      manifest_read_loop_metadata _ _ _ _ _ _ hm,
      show f + 2 = (f + 1) + 1 from rfl,
      manifest_read_loop_signature _ _ _ _ _ _ hs]
    have hend : toLE32 PROTOBUF_ENDOFMANIFEST_MAGIC =
        toLE32 PROTOBUF_ENDOFMANIFEST_MAGIC ++ ([] : List Nat) := by simp
    rw [hend, manifest_read_loop_end]
  · simp [Manifest.write, List.append_assoc]

/-- Witness for C6 at a concrete manifest. -/
theorem manifest_round_trip_witness :
    Manifest.read (Manifest.write ⟨[1, 2], [3], []⟩) = some ⟨[1, 2], [3], []⟩ := by
  exact (manifest_round_trip ⟨[1, 2], [3], []⟩ (by decide) (by decide) (by decide)).1

/-! ## The FUSE read path (`src/commands/backup/mount.rs` lines 430–512) — C1, C5

`self.chunks.get(&sha)` followed by `chunkstore.chunk_data(sha)` is modelled
by the pure router function `router : digest → Option (Res …)`: `none` is a
router miss (the source then panics in `.expect`), `some r` the result of
`chunk_data` — which theorem `chunk_data_verified` shows depends only on the
CSD content, so a pure function is faithful.  Rust slice expressions
`&mut buf[k..]` / `&chunk_data[j..]` panic when the start index exceeds the
slice length; `saturating_sub` is `Nat` subtraction. -/

inductive Errno where
  | EINVAL
  | EBADF
  | ioErr
  | ENOENT
  deriving Repr, DecidableEq

/-- The kernel-adapter state consulted by `read`: the inode table and the
open-file handle table. -/
structure FsState where
  inodes : List Node
  open_files : List (Nat × Nat)
  deriving Repr

/-- The chunk loop of `BackupFs::read` (mount.rs lines 473–506): the overlap
test is `read_start < chunk_end || chunk_start < read_end` — a disjunction
in the source. -/
def read_chunks (router : List Nat → Option (Res ChunkError (List Nat)))
    (read_start to_read : Nat) : List FChunk → List Nat → Res Errno (List Nat)
  | [], buf => .ok buf
  | chunk :: rest, buf =>
    if read_start < chunk.offset + chunk.cb_original ∨ chunk.offset < read_start + to_read then
      match router chunk.sha with
      | none => .panic
      | some .panic => .panic
      | some (.err _) => .err .ioErr
      | some (.ok cdata) =>
        if chunk.offset - read_start ≤ buf.length then
          if read_start - chunk.offset ≤ cdata.length then
            read_chunks router read_start to_read rest
              (buf.take (chunk.offset - read_start) ++
                ((cdata.drop (read_start - chunk.offset)).take
                  (min (buf.length - (chunk.offset - read_start))
                    (cdata.length - (read_start - chunk.offset)))) ++
                buf.drop ((chunk.offset - read_start) +
                  (min (buf.length - (chunk.offset - read_start))
                    (cdata.length - (read_start - chunk.offset)))))
          else .panic
        else .panic
    else read_chunks router read_start to_read rest buf

/-- `BackupFs::read` (mount.rs lines 430–512). -/
def fsRead (router : List Nat → Option (Res ChunkError (List Nat)))
    (fs : FsState) (ino fh : Nat) (offset : Nat) (size : Nat) : Res Errno (List Nat) :=
  match getNode fs.inodes ino, hashLookup fs.open_files fh with
  | some node, some expected_ino =>
    if expected_ino = ino then
      if offset > node.size then .err .EINVAL
      else
        match node.fileMapping with
        | none => .err .EINVAL
        | some file_mapping =>
          if min size (node.size - offset) = 0 then .ok []
          else
            read_chunks router offset (min size (node.size - offset)) file_mapping.chunks
              (List.replicate (min size (node.size - offset)) 0)
    else .err .EBADF
  | _, _ => .err .EBADF

/-- The concrete backup of C1's failing input: one real file of 3 bytes
covered contiguously by three 1-byte chunks, all chunk fetches succeeding. -/
def c1File : FileMapping :=
  { filename := "f", flags := 0, size := 3,
    chunks := [⟨[1], 0, 1⟩, ⟨[2], 1, 1⟩, ⟨[3], 2, 1⟩] }

def c1Meta : MMeta :=
  { depot_id := 1, creation_time := 0, filenames_encrypted := false, unique_chunks := 3 }

def c1Fs : FsState :=
  { inodes := [.real c1Meta ["f"] c1File], open_files := [(0, 2)] }

def c1Router (sha : List Nat) : Option (Res ChunkError (List Nat)) :=
  if sha = [1] then some (.ok [10])
  else if sha = [2] then some (.ok [11])
  else if sha = [3] then some (.ok [12])
  else none

/-- C1 (code bug): on the file with chunks `[0,1) [1,2) [2,3)` and the
in-bounds request `offset = 2, len = 1`, the read callback panics instead of
returning 1 byte.  The source's overlap test (mount.rs line 481) is the
disjunction `read_start < chunk_end || chunk_start < read_end`, which is
true for *every* chunk (it can only be false when the chunk or the request
is empty-and-inverted, which is impossible), so chunk `[0,1)` — disjoint
from the request window — is fetched and `&chunk_data[read_start −
chunk_start ..] = &chunk_data[2..]` indexes past the 1-byte chunk payload.
With the conjunction the claim's read property holds; the code as written
does not satisfy it. -/
theorem read_overlap_disjunction_panics :
    fsRead c1Router c1Fs 2 0 2 1 = .panic ∧
      min 1 (Node.size (.real c1Meta ["f"] c1File) - 2) = 1 := by
  constructor
  · rfl
  · rfl

/-- C5 counterexample state: a real node carrying the directory flag `0x40`
(size 0), plus a synthetic directory. -/
def c5DirFile : FileMapping :=
  { filename := "d", flags := 0x40, size := 0, chunks := [] }

def c5Fs : FsState :=
  { inodes := [.real c1Meta ["d"] c5DirFile, .synthetic c1Meta "s"],
    open_files := [(0, 2), (1, 3)] }

/-- C5 counterexample: reading a *real* node whose file-mapping flags carry
the directory bit `0x40` does not fail with `EINVAL` — the directory check
in `read` (mount.rs lines 454–461) only rejects synthetic nodes (those with
no file mapping), so the flagged node is read like a regular file and the
read at offset 0 returns 0 bytes successfully. -/
theorem read_real_directory_not_einval :
    fsRead c1Router c5Fs 2 0 0 10 = .ok [] ∧
      c5DirFile.flags &&& 0x40 ≠ 0 ∧
      isDirMapping (some c5DirFile) = true := by
  refine ⟨rfl, by decide, rfl⟩

/-- C5 (amended): with a valid matching handle, (i) a read at
`offset = size` of a *real* node returns 0 bytes with no error, (ii) a read
at `offset > size` of any node fails `EINVAL`, and (iii) a read of a
*synthetic* directory node fails `EINVAL` at every offset; a real node with
the directory flag is served like a regular file (see the counterexample),
not rejected. -/
theorem read_boundaries (router : List Nat → Option (Res ChunkError (List Nat)))
    (fs : FsState) (ino fh : Nat) (node : Node)
    (hnode : getNode fs.inodes ino = some node)
    (hfh : hashLookup fs.open_files fh = some ino) :
    (∀ size m p fm, node = .real m p fm →
      fsRead router fs ino fh node.size size = .ok []) ∧
    (∀ offset size, offset > node.size →
      fsRead router fs ino fh offset size = .err .EINVAL) ∧
    (∀ offset size m name, node = .synthetic m name →
      fsRead router fs ino fh offset size = .err .EINVAL) := by
  refine ⟨?_, ?_, ?_⟩
  · intro size m p fm hreal
    subst hreal
    simp only [fsRead, hnode, hfh, if_pos rfl]
    rw [if_neg (by omega : ¬ Node.size (.real m p fm) > Node.size (.real m p fm))]
    simp [Node.fileMapping, Node.size]
  · intro offset size hgt
    simp only [fsRead, hnode, hfh, if_pos rfl]
    simp [hgt]
  · intro offset size m name hsyn
    subst hsyn
    simp only [fsRead, hnode, hfh, if_pos rfl]
    by_cases hoff : offset > Node.size (.synthetic m name)
    · simp [hoff]
    · rw [if_neg hoff]
      simp [Node.fileMapping]

/-- Witness for C5's amended theorem on the concrete state `c5Fs`. -/
theorem read_boundaries_witness :
    fsRead c1Router c5Fs 2 0 0 7 = .ok [] ∧
      fsRead c1Router c5Fs 2 0 5 7 = .err .EINVAL ∧
      fsRead c1Router c5Fs 3 1 0 7 = .err .EINVAL := by
  have h := read_boundaries c1Router c5Fs 2 0 (.real c1Meta ["d"] c5DirFile)
    (by decide) (by decide)
  have h2 := read_boundaries c1Router c5Fs 3 1 (.synthetic c1Meta "s")
    (by decide) (by decide)
  exact ⟨h.1 7 c1Meta ["d"] c5DirFile rfl, h.2.1 5 7 (by decide), h2.2.2 0 7 c1Meta "s" rfl⟩

/-! ## VFS assembly (`BackupFs::prepare`, mount.rs lines 187–352) — C2, C4

Paths are component lists (`PathBuf` built from `split('/')` or
`split('\\')`); `parent` is `dropLast`, `file_name` is `getLast`.  The
directory map `HashMap<u64, Vec<u64>>` is modelled as the list of
parent→child edges in push order (the map's list at inode `d` is the
subsequence of edges with parent `d`).  `Vec::sort_by_key` is a stable sort
by a total order on paths; it is embedded as `List.insertionSort` ordered by
the lexicographic order on component lists — the assembly invariants do not
depend on which total order is used, only on equal paths becoming
adjacent. -/

abbrev FPath := List String

/-- A real node as materialised from a file mapping before assembly. -/
structure RealEntry where
  metadata : MMeta
  path : FPath
  file_mapping : FileMapping
  deriving Repr, DecidableEq

/-- The sort key of `inodes.sort_by_key(|node| node.path())`. -/
def entryLe (a b : RealEntry) : Prop := a.path ≤ b.path

instance : DecidableRel entryLe := fun a b =>
  inferInstanceAs (Decidable (a.path ≤ b.path))

instance : IsTotal RealEntry entryLe := ⟨fun a b => le_total a.path b.path⟩

instance : IsTrans RealEntry entryLe := ⟨fun _ _ _ => le_trans⟩

/-- The inner loop of `Vec::dedup_by`: drop each element whose path equals
the last kept element's path. -/
def dedupGo (kept : RealEntry) : List RealEntry → List RealEntry
  | [] => []
  | b :: l => if b.path = kept.path then dedupGo kept l else b :: dedupGo b l

/-- `inodes.dedup_by(|a, b| a.path() == b.path())` (keeps the first of each
run of path-equal nodes). -/
def dedupByPath : List RealEntry → List RealEntry
  | [] => []
  | a :: l => a :: dedupGo a l

/-- Sort by path, then deduplicate adjacent equal paths
(mount.rs lines 270–271). -/
def processReals (raw : List RealEntry) : List RealEntry :=
  dedupByPath (List.insertionSort entryLe raw)

/-- The assembly state: synthetic nodes appended so far (metadata, name),
the path index, and the directory map as a parent→child edge list. -/
structure AsmState where
  synths : List (MMeta × String)
  pm : List (FPath × Nat)
  edges : List (Nat × Nat)
  deriving Repr

/-- Multiplicity of inode `i` as a child in the directory map. -/
def childCount (edges : List (Nat × Nat)) (i : Nat) : Nat :=
  edges.countP fun e => e.2 = i

/-- The ancestor walk of `BackupFs::prepare` (mount.rs lines 306–338) for
one node: find the parent in the path index or create a synthetic parent
(inode `table length + 2`), register it, record the parent→child edge and
continue with the grandparent.  Fuel ≥ `p.length + 1` always suffices; the
`p = []` failure is the source's `.expect("not empty")` panic, unreachable
because the empty path maps to the root. -/
def attach (md : MMeta) (n : Nat) : Nat → FPath → Nat → AsmState → Option AsmState
  | 0, _, _, _ => none
  | fuel + 1, p, c, st =>
    match hashLookup st.pm p with
    | some parent_ino => some { st with edges := st.edges ++ [(parent_ino, c)] }
    | none =>
      match p with
      | [] => none
      | h :: tl =>
        attach md n fuel (h :: tl).dropLast (n + st.synths.length + 2)
          { synths := st.synths ++ [(md, (h :: tl).getLast (by simp))],
            pm := st.pm ++ [(h :: tl, n + st.synths.length + 2)],
            edges := st.edges ++ [(n + st.synths.length + 2, c)] }

/-- The initial path index: each (deduplicated) real node's path at
`index + 2`, then the root entry (mount.rs lines 278–289). -/
def initState (reals : List RealEntry) : AsmState :=
  { synths := [],
    pm := (reals.enum.map fun ie => (ie.2.path, ie.1 + 2)) ++ [([], 1)],
    edges := [] }

/-- The outer loop of `BackupFs::prepare` (mount.rs lines 294–339): for
each real node index in the pre-growth table, walk its ancestors. -/
def buildFrom (n : Nat) : List (Nat × RealEntry) → AsmState → Option AsmState
  | [], st => some st
  | ie :: rest, st =>
    match attach ie.2.metadata n (ie.2.path.length + 1) ie.2.path.dropLast (ie.1 + 2) st with
    | none => none
    | some st' => buildFrom n rest st'

def buildDirMap (reals : List RealEntry) : Option AsmState :=
  buildFrom reals.length reals.enum (initState reals)

/-- `str::split` at the character level (`String.split` is positional and
opaque to the kernel; splitting the character list is equivalent). -/
def splitCharAux (sep : Char) : List Char → List Char → List (List Char)
  | [], acc => [acc.reverse]
  | c :: cs, acc =>
    if c = sep then acc.reverse :: splitCharAux sep cs []
    else splitCharAux sep cs (c :: acc)

/-- `file_mapping.take_filename()` → platform path (mount.rs lines
253–258): split at `/` if any `/` occurs, else at `\`. -/
def toPath (filename : String) : FPath :=
  if filename.data.contains '/' then (splitCharAux '/' filename.data []).map String.mk
  else (splitCharAux '\\' filename.data []).map String.mk

/-- The pure core of `BackupFs::prepare` (mount.rs lines 187–352), from the
loaded depot manifests onward: validate each manifest's depot id, build real
nodes, sort/dedup, assemble the path index and directory map.  There is no
check of `filenames_encrypted` anywhere in this function.  Chunkstore
opening is omitted (irrelevant to C2/C4). -/
structure PManifest where
  metadata : MMeta
  mappings : List FileMapping
  deriving Repr, DecidableEq

def prepare (ms : List (Nat × PManifest)) : Option (List Node × AsmState) :=
  match ms.mapM (fun dm => if dm.2.metadata.depot_id = dm.1 then some dm.2 else none) with
  | none => none
  | some manifests =>
    let raw := (manifests.map fun m => m.mappings.map fun fm =>
      ({ metadata := m.metadata, path := toPath fm.filename, file_mapping := fm } : RealEntry)).flatten
    let reals := processReals raw
    match buildDirMap reals with
    | none => none
    | some st =>
      some (reals.map (fun r => Node.real r.metadata r.path r.file_mapping) ++
        st.synths.map (fun sn => Node.synthetic sn.1 sn.2), st)

theorem dedupGo_subset (kept : RealEntry) (l : List RealEntry) :
    ∀ y ∈ dedupGo kept l, y ∈ l := by
  induction l generalizing kept with
  | nil => simp [dedupGo]
  | cons b l ih =>
    intro y hy
    simp only [dedupGo] at hy
    split at hy
    · exact List.mem_cons_of_mem _ (ih kept y hy)
    · rcases List.mem_cons.mp hy with h | h
      · exact h ▸ List.mem_cons_self _ _
      · exact List.mem_cons_of_mem _ (ih b y h)

theorem dedupGo_spec (kept : RealEntry) (l : List RealEntry)
    (hs : l.Pairwise entryLe) (hk : ∀ x ∈ l, kept.path ≤ x.path) :
    ((dedupGo kept l).map RealEntry.path).Pairwise (· < ·) ∧
      ∀ y ∈ dedupGo kept l, kept.path < y.path := by
  induction l generalizing kept with
  | nil => simp [dedupGo]
  | cons b l ih =>
    have hkb : kept.path ≤ b.path := hk b (List.mem_cons_self _ _)
    have hbs : ∀ x ∈ l, b.path ≤ x.path := fun x hx => (List.pairwise_cons.mp hs).1 x hx
    have hst : l.Pairwise entryLe := (List.pairwise_cons.mp hs).2
    simp only [dedupGo]
    split
    · next heq =>
      exact ih kept hst fun x hx => le_trans (le_of_eq heq.symm) (hbs x hx)
    · next hne =>
      have hlt : kept.path < b.path := lt_of_le_of_ne hkb (fun h => hne h.symm)
      obtain ⟨hpw, hgt⟩ := ih b hst hbs
      constructor
      · simp only [List.map_cons]
        refine List.pairwise_cons.mpr ⟨?_, hpw⟩
        intro y hy
        obtain ⟨z, hz, rfl⟩ := List.mem_map.mp hy
        exact hgt z hz
      · intro y hy
        rcases List.mem_cons.mp hy with h | h
        · exact h ▸ hlt
        · exact lt_trans hlt (hgt y h)

theorem processReals_nodup (raw : List RealEntry) :
    ((processReals raw).map RealEntry.path).Nodup := by
  unfold processReals dedupByPath
  cases hsrt : List.insertionSort entryLe raw with
  | nil => simp
  | cons a l =>
    have hs : (a :: l).Pairwise entryLe := by
      rw [← hsrt]
      exact List.sorted_insertionSort entryLe raw
    obtain ⟨hpw, hgt⟩ := dedupGo_spec a l (List.pairwise_cons.mp hs).2
      (fun x hx => (List.pairwise_cons.mp hs).1 x hx)
    show ((a :: dedupGo a l).map RealEntry.path).Pairwise (· ≠ ·)
    simp only [List.map_cons]
    refine List.pairwise_cons.mpr ⟨?_, hpw.imp ne_of_lt⟩
    intro y hy
    obtain ⟨z, hz, rfl⟩ := List.mem_map.mp hy
    exact ne_of_lt (hgt z hz)

theorem processReals_mem (raw : List RealEntry) :
    ∀ r ∈ processReals raw, r ∈ raw := by
  unfold processReals dedupByPath
  cases hsrt : List.insertionSort entryLe raw with
  | nil => simp
  | cons a l =>
    intro r hr
    have hsub : r ∈ List.insertionSort entryLe raw := by
      rw [hsrt]
      rcases List.mem_cons.mp hr with h | h
      · exact h ▸ List.mem_cons_self _ _
      · exact List.mem_cons_of_mem _ (dedupGo_subset a l r h)
    exact (List.perm_insertionSort entryLe raw).subset hsub

theorem childCount_append (l₁ l₂ : List (Nat × Nat)) (i : Nat) :
    childCount (l₁ ++ l₂) i = childCount l₁ i + childCount l₂ i :=
  List.countP_append _ _ _

theorem childCount_single (p c i : Nat) :
    childCount [(p, c)] i = if c = i then 1 else 0 := by
  simp [childCount, List.countP_cons]

theorem childCount_nil (i : Nat) : childCount [] i = 0 := rfl

/-- Behaviour of one ancestor walk: it never fails (given the root is in the
path index and the fuel covers the path length), registers `t` fresh
synthetic inodes continuing the positional numbering, appends their path
index entries, and adds exactly one parent edge for the child and for each
fresh synthetic inode. -/
theorem attach_spec (md : MMeta) (n : Nat) :
    ∀ fuel p c (st : AsmState),
      p.length + 1 ≤ fuel →
      hashLookup st.pm [] = some 1 →
      (st.pm.map Prod.fst).Nodup →
      st.pm.map Prod.snd =
        List.range' 2 n ++ [1] ++ List.range' (n + 2) st.synths.length →
      c < n + st.synths.length + 2 →
      ∃ t st', attach md n fuel p c st = some st' ∧
        st'.synths.length = st.synths.length + t ∧
        (∃ regs, st'.pm = st.pm ++ regs ∧
          regs.map Prod.snd = List.range' (n + st.synths.length + 2) t) ∧
        (st'.pm.map Prod.fst).Nodup ∧
        hashLookup st'.pm [] = some 1 ∧
        st'.pm.map Prod.snd =
          List.range' 2 n ++ [1] ++ List.range' (n + 2) st'.synths.length ∧
        (∀ i, childCount st'.edges i = childCount st.edges i +
          ((if i = c then 1 else 0) +
            (if n + st.synths.length + 2 ≤ i ∧ i < n + st.synths.length + 2 + t
              then 1 else 0))) := by
  intro fuel
  induction fuel with
  | zero =>
    intro p c st hf _ _ _ _
    exact absurd hf (by omega)
  | succ fuel ih =>
    intro p c st hf hroot hkeys hvals hc
    cases hlk : hashLookup st.pm p with
    | some parent_ino =>
      refine ⟨0, { st with edges := st.edges ++ [(parent_ino, c)] },
        by simp only [attach, hlk], by simp, ⟨[], by simp, by simp⟩, hkeys, hroot,
        by simpa using hvals, ?_⟩
      intro i
      simp only [childCount_append, childCount_single]
      split_ifs <;> omega
    | none =>
      match p, hf with
      | [], _ =>
        rw [hroot] at hlk
        cases hlk
      | h :: tl, hf =>
        have hf' : (h :: tl).dropLast.length + 1 ≤ fuel := by
          simp only [List.dropLast_cons_of_ne_nil, List.length_dropLast, List.length_cons] at *
          omega
        have hpnotin : (h :: tl) ∉ st.pm.map Prod.fst :=
          (hashLookup_eq_none_iff _ _).mp hlk
        have hroot₁ :
            hashLookup (st.pm ++ [(h :: tl, n + st.synths.length + 2)]) [] = some 1 := by
          rw [hashLookup_append]
          have : hashLookup [(h :: tl, n + st.synths.length + 2)] ([] : FPath) = none := by
            simp [hashLookup]
          rw [this, hroot]
        have hkeys₁ :
            ((st.pm ++ [(h :: tl, n + st.synths.length + 2)]).map Prod.fst).Nodup := by
          rw [List.map_append]
          refine List.nodup_append.mpr ⟨hkeys, by simp, ?_⟩
          intro a ha hb
          simp only [List.map_cons, List.map_nil, List.mem_cons, List.not_mem_nil,
            or_false] at hb
          subst hb
          exact hpnotin ha
        have hvals₁ :
            ((st.pm ++ [(h :: tl, n + st.synths.length + 2)]).map Prod.snd) =
              List.range' 2 n ++ [1] ++
                List.range' (n + 2)
                  ((st.synths ++ [(md, (h :: tl).getLast (by simp))]).length) := by
          rw [List.map_append, hvals]
          simp only [List.map_cons, List.map_nil, List.length_append, List.length_cons,
            List.length_nil]
          rw [List.append_assoc (List.range' 2 n ++ [1])
            (List.range' (n + 2) st.synths.length) [n + st.synths.length + 2]]
          congr 1
          rw [List.range'_concat]
          congr 2
          omega
        have hc₁ : n + st.synths.length + 2 <
            n + (st.synths ++ [(md, (h :: tl).getLast (by simp))]).length + 2 := by
          simp
        obtain ⟨t', st'', heq, hsyn, ⟨regs', hpm, hregs⟩, hkeys', hroot', hvals', hcount⟩ :=
          ih ((h :: tl).dropLast) (n + st.synths.length + 2)
            ⟨st.synths ++ [(md, (h :: tl).getLast (by simp))],
              st.pm ++ [(h :: tl, n + st.synths.length + 2)],
              st.edges ++ [(n + st.synths.length + 2, c)]⟩
            hf' hroot₁ hkeys₁ hvals₁ hc₁
        refine ⟨t' + 1, st'', by simp only [attach, hlk]; exact heq, ?_, ?_, hkeys', hroot',
          ?_, ?_⟩
        · simp only [List.length_append, List.length_cons, List.length_nil] at hsyn
          omega
        · refine ⟨(h :: tl, n + st.synths.length + 2) :: regs', ?_, ?_⟩
          · rw [hpm, List.append_assoc]
            rfl
          · simp only [List.map_cons]
            rw [hregs]
            simp only [List.length_append, List.length_cons, List.length_nil]
            have harr : n + (st.synths.length + 1) + 2 = n + st.synths.length + 2 + 1 := by
              omega
            rw [harr, List.range'_succ]
        · rw [hvals']
        · intro i
          have h1 := hcount i
          simp only [List.length_append, List.length_cons, List.length_nil] at h1
          rw [h1, childCount_append, childCount_single]
          split_ifs <;> omega

/-- Behaviour of the outer assembly loop over consecutively indexed real
nodes: it completes, the path index only grows by fresh synthetic
registrations with consecutive inode numbers, and after processing indices
`[k, k + entries.length)` exactly the reals processed so far and all created
synthetics have exactly one parent edge. -/
theorem buildFrom_spec (n : Nat) (initPm0 : List (FPath × Nat))
    (entries : List (Nat × RealEntry)) :
    ∀ (k : Nat) (st : AsmState),
      entries.map Prod.fst = List.range' k entries.length →
      k + entries.length ≤ n →
      (∃ regs, st.pm = initPm0 ++ regs ∧
        regs.map Prod.snd = List.range' (n + 2) st.synths.length) →
      (st.pm.map Prod.fst).Nodup →
      hashLookup st.pm [] = some 1 →
      st.pm.map Prod.snd =
        List.range' 2 n ++ [1] ++ List.range' (n + 2) st.synths.length →
      (∀ i, childCount st.edges i =
        if (2 ≤ i ∧ i < k + 2) ∨ (n + 2 ≤ i ∧ i < n + 2 + st.synths.length)
        then 1 else 0) →
      ∃ st', buildFrom n entries st = some st' ∧
        (∃ regs, st'.pm = initPm0 ++ regs ∧
          regs.map Prod.snd = List.range' (n + 2) st'.synths.length) ∧
        (st'.pm.map Prod.fst).Nodup ∧
        hashLookup st'.pm [] = some 1 ∧
        st'.pm.map Prod.snd =
          List.range' 2 n ++ [1] ++ List.range' (n + 2) st'.synths.length ∧
        (∀ i, childCount st'.edges i =
          if (2 ≤ i ∧ i < k + entries.length + 2) ∨
              (n + 2 ≤ i ∧ i < n + 2 + st'.synths.length)
          then 1 else 0) := by
  induction entries with
  | nil =>
    intro k st _ _ hregs hkeys hroot hvals hcount
    refine ⟨st, rfl, hregs, hkeys, hroot, hvals, ?_⟩
    intro i
    rw [hcount i]
    simp only [List.length_nil, Nat.add_zero]
  | cons ie rest ih =>
    intro k st hidx hk hregs hkeys hroot hvals hcount
    simp only [List.map_cons, List.length_cons] at hidx
    rw [List.range'_succ] at hidx
    obtain ⟨hie, hrest⟩ := List.cons.inj hidx
    subst hie
    simp only [List.length_cons] at hk
    obtain ⟨regs, hpm, hregsnd⟩ := hregs
    have hf : ie.2.path.dropLast.length + 1 ≤ ie.2.path.length + 1 := by
      simp only [List.length_dropLast]
      omega
    have hc : ie.1 + 2 < n + st.synths.length + 2 := by omega
    obtain ⟨t, st₁, hatt, hsyn, ⟨regs₁, hpm₁, hregs₁⟩, hkeys₁, hroot₁, hvals₁, hcount₁⟩ :=
      attach_spec ie.2.metadata n (ie.2.path.length + 1) ie.2.path.dropLast (ie.1 + 2) st
        hf hroot hkeys hvals hc
    have hregs' : ∃ regs2, st₁.pm = initPm0 ++ regs2 ∧
        regs2.map Prod.snd = List.range' (n + 2) st₁.synths.length := by
      refine ⟨regs ++ regs₁, by rw [hpm₁, hpm, List.append_assoc], ?_⟩
      rw [List.map_append, hregsnd, hregs₁, hsyn]
      have h1 : n + st.synths.length + 2 = n + 2 + 1 * st.synths.length := by omega
      rw [h1, List.range'_append]
      congr 1
      omega
    have hcount' : ∀ i, childCount st₁.edges i =
        if (2 ≤ i ∧ i < (ie.1 + 1) + 2) ∨ (n + 2 ≤ i ∧ i < n + 2 + st₁.synths.length)
        then 1 else 0 := by
      intro i
      rw [hcount₁ i, hcount i]
      split_ifs <;> omega
    obtain ⟨st', hbf, hregs'', hkeys'', hroot'', hvals'', hcount''⟩ :=
      ih (ie.1 + 1) st₁ hrest (by omega) hregs' hkeys₁ hroot₁ hvals₁ hcount'
    refine ⟨st', ?_, hregs'', hkeys'', hroot'', hvals'', ?_⟩
    · simp only [buildFrom]
      rw [hatt]
      exact hbf
    · intro i
      rw [hcount'' i]
      simp only [List.length_cons]
      split_ifs <;> omega

theorem initState_pm_fst (reals : List RealEntry) :
    (initState reals).pm.map Prod.fst = reals.map RealEntry.path ++ [[]] := by
  simp only [initState, List.map_append, List.map_map]
  congr 1
  have : (Prod.fst ∘ fun ie : Nat × RealEntry => (ie.2.path, ie.1 + 2)) =
      RealEntry.path ∘ Prod.snd := rfl
  rw [this, ← List.map_map, List.enum_map_snd]

theorem initState_pm_snd (reals : List RealEntry) :
    (initState reals).pm.map Prod.snd = List.range' 2 reals.length ++ [1] := by
  simp only [initState, List.map_append, List.map_map]
  congr 1
  have h1 : (Prod.snd ∘ fun ie : Nat × RealEntry => (ie.2.path, ie.1 + 2)) =
      (fun x => x + 2) ∘ Prod.fst := rfl
  rw [h1, ← List.map_map, List.enum_map_fst]
  have h2 : List.range' 2 reals.length = (List.range reals.length).map (2 + ·) :=
    List.range'_eq_map_range 2 reals.length
  rw [h2]
  exact List.map_congr_left fun x _ => Nat.add_comm x 2

/-- C4: the VFS assembly of any valid backup (every real path nonempty)
completes, and afterwards: every inode `i ≠ 1` of the assembled table has
exactly one parent edge in the directory map (and inode 1 none); the path
index is injective in both directions — no two nodes share a path, and its
inode values are exactly the root plus the positional values `index + 2`
(reals first, then synthetics in creation order); the (deduplicated) real
node at table index `k` is indexed at inode `k + 2`; and the root inode 1
is never found in the node table by `get_node`. -/
theorem vfs_assembly_invariants (raw : List RealEntry)
    (hne : ∀ r ∈ raw, r.path ≠ []) :
    ∃ st, buildDirMap (processReals raw) = some st ∧
      (∀ i, childCount st.edges i =
        if 2 ≤ i ∧ i < (processReals raw).length + st.synths.length + 2 then 1 else 0) ∧
      (st.pm.map Prod.fst).Nodup ∧
      st.pm.map Prod.snd =
        List.range' 2 (processReals raw).length ++ [1] ++
          List.range' ((processReals raw).length + 2) st.synths.length ∧
      hashLookup st.pm [] = some 1 ∧
      (∀ k (hk : k < (processReals raw).length),
        hashLookup st.pm ((processReals raw).get ⟨k, hk⟩).path = some (k + 2)) ∧
      (∀ inodes : List Node, getNode inodes 1 = none) := by
  set reals := processReals raw with hreals
  have hpnodup : (reals.map RealEntry.path).Nodup := processReals_nodup raw
  have hpne : ∀ r ∈ reals, r.path ≠ [] := fun r hr => hne r (processReals_mem raw r hr)
  have hkeys0 : ((initState reals).pm.map Prod.fst).Nodup := by
    rw [initState_pm_fst]
    refine List.nodup_append.mpr ⟨hpnodup, by simp, ?_⟩
    intro a ha hb
    simp only [List.mem_cons, List.not_mem_nil, or_false] at hb
    subst hb
    obtain ⟨r, hr, hrp⟩ := List.mem_map.mp ha
    exact hpne r hr hrp
  have hroot0 : hashLookup (initState reals).pm [] = some 1 := by
    refine hashLookup_nodup_mem _ hkeys0 _ _ ?_
    simp [initState]
  have hvals0 : (initState reals).pm.map Prod.snd =
      List.range' 2 reals.length ++ [1] ++
        List.range' (reals.length + 2) (initState reals).synths.length := by
    rw [initState_pm_snd]
    simp [initState]
  have hidx0 : reals.enum.map Prod.fst = List.range' 0 reals.enum.length := by
    rw [List.enum_map_fst, List.enum_length, List.range_eq_range']
  have hcount0 : ∀ i, childCount (initState reals).edges i =
      if (2 ≤ i ∧ i < 0 + 2) ∨
          (reals.length + 2 ≤ i ∧ i < reals.length + 2 + (initState reals).synths.length)
      then 1 else 0 := by
    intro i
    show childCount [] i = _
    rw [childCount_nil]
    split_ifs with h
    · simp only [initState, List.length_nil] at h
      omega
    · rfl
  have hlen0 : reals.enum.length = reals.length := List.enum_length
  obtain ⟨st, hbf, ⟨regs, hpm, hregs⟩, hkeys, hroot, hvals, hcount⟩ :=
    buildFrom_spec reals.length (initState reals).pm reals.enum 0 (initState reals)
      (by rw [hidx0, hlen0]) (by omega) ⟨[], by simp, by simp [initState]⟩
      hkeys0 hroot0 hvals0 hcount0
  refine ⟨st, hbf, ?_, hkeys, by simpa using hvals, hroot, ?_, ?_⟩
  · intro i
    rw [hcount i]
    simp only [hlen0]
    split_ifs <;> omega
  · intro k hk
    refine hashLookup_nodup_mem _ hkeys _ _ ?_
    rw [hpm]
    refine List.mem_append_left _ ?_
    simp only [initState]
    refine List.mem_append_left _ ?_
    refine List.mem_map.mpr ⟨(k, reals.get ⟨k, hk⟩), ?_, rfl⟩
    refine List.mk_mem_enum_iff_getElem?.mpr ?_
    rw [List.getElem?_eq_getElem hk]
    simp [List.get_eq_getElem]
  · intro inodes
    rfl

/-- Witness for C4: a two-file backup (`a/b`, `a/c`) whose assembly creates
one synthetic directory. -/
theorem vfs_assembly_invariants_witness :
    (∀ r ∈ [⟨c1Meta, ["a", "b"], c1File⟩, ⟨c1Meta, ["a", "c"], c1File⟩], RealEntry.path r ≠ []) ∧
      ∃ st, buildDirMap
          (processReals [⟨c1Meta, ["a", "b"], c1File⟩, ⟨c1Meta, ["a", "c"], c1File⟩]) =
            some st ∧
        (∀ i, childCount st.edges i =
          if 2 ≤ i ∧ i <
              (processReals [⟨c1Meta, ["a", "b"], c1File⟩, ⟨c1Meta, ["a", "c"], c1File⟩]).length +
                st.synths.length + 2
          then 1 else 0) ∧
        (st.pm.map Prod.fst).Nodup ∧
        st.pm.map Prod.snd =
          List.range' 2
              (processReals [⟨c1Meta, ["a", "b"], c1File⟩, ⟨c1Meta, ["a", "c"], c1File⟩]).length ++
            [1] ++
            List.range'
              ((processReals [⟨c1Meta, ["a", "b"], c1File⟩, ⟨c1Meta, ["a", "c"], c1File⟩]).length + 2)
              st.synths.length ∧
        hashLookup st.pm [] = some 1 ∧
        (∀ k (hk : k <
            (processReals [⟨c1Meta, ["a", "b"], c1File⟩, ⟨c1Meta, ["a", "c"], c1File⟩]).length),
          hashLookup st.pm
            ((processReals [⟨c1Meta, ["a", "b"], c1File⟩, ⟨c1Meta, ["a", "c"], c1File⟩]).get
              ⟨k, hk⟩).path = some (k + 2)) ∧
        (∀ inodes : List Node, getNode inodes 1 = none) := by
  refine ⟨by decide, ?_⟩
  exact vfs_assembly_invariants
    [⟨c1Meta, ["a", "b"], c1File⟩, ⟨c1Meta, ["a", "c"], c1File⟩] (by decide)

/-! ## C2 — mount preparation and encrypted filenames -/

def c2Meta : MMeta :=
  { depot_id := 7, creation_time := 11, filenames_encrypted := true, unique_chunks := 0 }

def c2Mapping : FileMapping :=
  { filename := "dir/a.txt", flags := 0, size := 6, chunks := [] }

def c2Manifest : PManifest := { metadata := c2Meta, mappings := [c2Mapping] }

/-- C2 (code bug): `BackupFs::prepare` performs no check of
`filenames_encrypted` — on a backup whose only depot manifest reports
encrypted filenames it succeeds, builds the inode table (here the real file
plus its synthetic parent directory) and would mount and serve it; the
claim (and spec §7/§8 scenario 6) say it must fail fast with
*EncryptedFilenames*. -/
theorem prepare_accepts_encrypted_filenames :
    c2Meta.filenames_encrypted = true ∧
      (prepare [(7, c2Manifest)]).isSome = true ∧
      (prepare [(7, c2Manifest)]).map (fun fs => fs.1.length) = some 2 ∧
      (prepare [(7, c2Manifest)]).map (fun fs => (getNode fs.1 2).isSome) = some true := by
  exact ⟨rfl, rfl, rfl, rfl⟩

/-! ## Verifier (`src/commands/backup/verify.rs`) — C7

`verify_chunkstore` is embedded from its pure inputs: the result of
`ChunkStore::open` (`none` = reported open failure) and the SKU's recorded
chunkstore length (an `Int`: a negative value is the "length is −1" case,
counted as zero chunks).  Printing is irrelevant to the claim except for
two observables, returned by `verify_backup`: whether the final
"Depot files match SKU!" line is printed, and whether a `unique_chunks`
mismatch was reported. -/

def Res.isOk {ε α : Type} : Res ε α → Bool
  | .ok _ => true
  | _ => false

/-- `chunk_data` only mutates the store's position and scratch buffer. -/
theorem chunk_data_snd_fields (decomp : List Nat → Option (List Nat))
    (sha1 : List Nat → List Nat) (cs : ChunkStore) (sha : List Nat) :
    ((chunk_data decomp sha1 cs sha).2).csm = cs.csm ∧
      ((chunk_data decomp sha1 cs sha).2).csd = cs.csd ∧
      ((chunk_data decomp sha1 cs sha).2).chunk_map = cs.chunk_map := by
  cases hlk : hashLookup cs.chunk_map sha with
  | none => simp [chunk_data, hlk]
  | some idx =>
    cases hg : cs.csm.chunks[idx]? with
    | none => simp [chunk_data, hlk, hg]
    | some e =>
      obtain ⟨d, chunk⟩ := e
      by_cases hle : chunk.offset + chunk.compressed_length ≤ cs.csd.length
      · cases hdv : decompress_and_verify decomp sha1
            ((cs.csd.drop chunk.offset).take chunk.compressed_length)
            chunk.uncompressed_length sha with
        | ok ck => cases ck <;> simp [chunk_data, hlk, hg, hle, hdv]
        | err e => simp [chunk_data, hlk, hg, hle, hdv]
        | panic => simp [chunk_data, hlk, hg, hle, hdv]
      · simp [chunk_data, hlk, hg, hle]

/-- The result component of `chunk_data` depends only on the CSM, the CSD
bytes and the digest map — not on position or buffer. -/
theorem chunk_data_fst_congr (decomp : List Nat → Option (List Nat))
    (sha1 : List Nat → List Nat) (cs cs' : ChunkStore)
    (h1 : cs'.csm = cs.csm) (h2 : cs'.csd = cs.csd) (h3 : cs'.chunk_map = cs.chunk_map)
    (sha : List Nat) :
    (chunk_data decomp sha1 cs' sha).1 = (chunk_data decomp sha1 cs sha).1 := by
  cases hlk : hashLookup cs.chunk_map sha with
  | none => simp [chunk_data, h1, h2, h3, hlk]
  | some idx =>
    cases hg : cs.csm.chunks[idx]? with
    | none => simp [chunk_data, h1, h2, h3, hlk, hg]
    | some e =>
      obtain ⟨d, chunk⟩ := e
      by_cases hle : chunk.offset + chunk.compressed_length ≤ cs.csd.length
      · cases hdv : decompress_and_verify decomp sha1
            ((cs.csd.drop chunk.offset).take chunk.compressed_length)
            chunk.uncompressed_length sha with
        | ok ck => cases ck <;> simp [chunk_data, h1, h2, h3, hlk, hg, hle, hdv]
        | err e => simp [chunk_data, h1, h2, h3, hlk, hg, hle, hdv]
        | panic => simp [chunk_data, h1, h2, h3, hlk, hg, hle, hdv]
      · simp [chunk_data, h1, h2, h3, hlk, hg, hle]

/-- The per-chunk loop of `verify_chunkstore` (verify.rs lines 151–161):
any chunk error clears `valid`, `bytes_read` accumulates compressed
lengths, the pass continues.  (A `chunk_data` panic would abort the whole
`verify_backup` as a `JoinError`, also suppressing the final line; it maps
to invalid here.) -/
def verify_chunks (decomp : List Nat → Option (List Nat)) (sha1 : List Nat → List Nat) :
    List (List Nat × Chunk) → ChunkStore → Bool → Nat → Bool × Nat
  | [], _, valid, bytes_read => (valid, bytes_read)
  | (sha, chunk) :: rest, cs, valid, bytes_read =>
    match chunk_data decomp sha1 cs sha with
    | (.ok _, cs') =>
      verify_chunks decomp sha1 rest cs' valid (bytes_read + chunk.compressed_length)
    | (.err _, cs') =>
      verify_chunks decomp sha1 rest cs' false (bytes_read + chunk.compressed_length)
    | (.panic, cs') =>
      verify_chunks decomp sha1 rest cs' false (bytes_read + chunk.compressed_length)

/-- `verify_chunkstore` (verify.rs lines 125–174): open failure → `none`;
CSD size mismatch clears `valid`; the trailing `bytes_read` comparison only
prints and does not affect validity; returns `valid.then_some num_chunks`. -/
def verify_chunkstore (decomp : List Nat → Option (List Nat)) (sha1 : List Nat → List Nat)
    (openResult : Option ChunkStore) (chunkstore_length : Nat) : Option Nat :=
  match openResult with
  | none => none
  | some cs =>
    if (verify_chunks decomp sha1 cs.csm.chunks cs
        (decide (cs.csd.length = chunkstore_length)) 0).1 then
      some cs.csm.chunks.length
    else none

/-- The per-depot chunkstore pass (verify.rs lines 82–108): a negative SKU
length is "no idea what that means", counted as zero chunks and valid; a
`none` from `verify_chunkstore` clears the depot validity; chunk counts
accumulate. -/
def depot_pass (decomp : List Nat → Option (List Nat)) (sha1 : List Nat → List Nat) :
    List (Int × Option ChunkStore) → Bool × Nat
  | [] => (true, 0)
  | (len, opn) :: rest =>
    let head : Option Nat :=
      if 0 ≤ len then verify_chunkstore decomp sha1 opn len.toNat else some 0
    let tail := depot_pass decomp sha1 rest
    match head with
    | some c => (tail.1, c + tail.2)
    | none => (false, tail.2)

/-- `verify_backup` (verify.rs lines 43–122), observables: first component
is whether the final "Depot files match SKU!" line is printed (`valid`);
second is whether some depot's loaded manifest `unique_chunks` differed
from the chunks counted on disk (which the source only *prints*, without
touching `valid`). -/
def verify_backup (decomp : List Nat → Option (List Nat)) (sha1 : List Nat → List Nat)
    (depots : List (Option MMeta × List (Int × Option ChunkStore))) : Bool × Bool :=
  let results := depots.map fun d =>
    let r := depot_pass decomp sha1 d.2
    (r.1, match d.1 with
      | some md => decide (md.unique_chunks ≠ r.2)
      | none => false)
  ((results.map Prod.fst).all id, (results.map Prod.snd).any id)

def c7Decomp : List Nat → Option (List Nat) := fun _ => some [7, 8, 9]

def c7Sha1 : List Nat → List Nat := fun l => [l.length]

def c7Store : ChunkStore :=
  ChunkStore.build
    { is_encrypted := false, depot := 7,
      chunks := [([3], { offset := 0, uncompressed_length := 3, compressed_length := 4 })] }
    [0x50, 0x4B, 0, 0]

def c7Meta : MMeta :=
  { depot_id := 7, creation_time := 0, filenames_encrypted := false, unique_chunks := 5 }

/-- C7 counterexample: a backup whose single chunkstore verifies cleanly
(correct size, all chunks valid) but whose loaded depot manifest reports
`unique_chunks = 5` against 1 chunk on disk: the mismatch is reported, yet
the final "Depot files match SKU!" line is still printed — a reported
`unique_chunks` mismatch does **not** suppress the line as the claim
states. -/
theorem verify_unique_mismatch_line_printed :
    verify_backup c7Decomp c7Sha1 [(some c7Meta, [((4 : Int), some c7Store)])] =
        (true, true) ∧
      c7Meta.unique_chunks = 5 ∧
      (depot_pass c7Decomp c7Sha1 [((4 : Int), some c7Store)]).2 = 1 := by
  exact ⟨rfl, rfl, rfl⟩

theorem all_isOk_congr (decomp : List Nat → Option (List Nat))
    (sha1 : List Nat → List Nat) (cs cs' : ChunkStore)
    (h1 : cs'.csm = cs.csm) (h2 : cs'.csd = cs.csd) (h3 : cs'.chunk_map = cs.chunk_map)
    (t : List (List Nat × Chunk)) :
    (t.all fun x => ((chunk_data decomp sha1 cs' x.1).1).isOk) =
      (t.all fun x => ((chunk_data decomp sha1 cs x.1).1).isOk) := by
  induction t with
  | nil => rfl
  | cons a t iht =>
    simp only [List.all_cons, iht]
    rw [chunk_data_fst_congr decomp sha1 cs cs' h1 h2 h3 a.1]

theorem all_map_general {α β : Type} (l : List α) (f : α → β) (p : β → Bool) :
    (l.map f).all p = l.all fun x => p (f x) := by
  induction l with
  | nil => rfl
  | cons a l ih => simp [List.all_cons, ih]

theorem verify_chunks_spec (decomp : List Nat → Option (List Nat))
    (sha1 : List Nat → List Nat) (l : List (List Nat × Chunk)) :
    ∀ (cs : ChunkStore) (valid : Bool) (b : Nat),
      (verify_chunks decomp sha1 l cs valid b).1 =
        (valid && l.all fun e => ((chunk_data decomp sha1 cs e.1).1).isOk) := by
  induction l with
  | nil =>
    intro cs valid b
    simp [verify_chunks]
  | cons e l ih =>
    intro cs valid b
    obtain ⟨sha, chunk⟩ := e
    simp only [verify_chunks]
    rcases hcd : chunk_data decomp sha1 cs sha with ⟨res, cs'⟩
    have hfields := chunk_data_snd_fields decomp sha1 cs sha
    rw [hcd] at hfields
    have hall := all_isOk_congr decomp sha1 cs cs' hfields.1 hfields.2.1 hfields.2.2 l
    cases res with
    | ok a =>
      rw [ih cs', hall]
      simp only [List.all_cons, hcd, Res.isOk, Bool.true_and]
    | err e =>
      rw [ih cs', hall]
      simp only [List.all_cons, hcd, Res.isOk]
      cases valid <;> simp
    | panic =>
      rw [ih cs', hall]
      simp only [List.all_cons, hcd, Res.isOk]
      cases valid <;> simp

theorem verify_chunkstore_isSome_iff (decomp : List Nat → Option (List Nat))
    (sha1 : List Nat → List Nat) (opn : Option ChunkStore) (len : Nat) :
    (verify_chunkstore decomp sha1 opn len).isSome = true ↔
      ∃ cs, opn = some cs ∧ cs.csd.length = len ∧
        ∀ ch ∈ cs.csm.chunks, ((chunk_data decomp sha1 cs ch.1).1).isOk = true := by
  cases opn with
  | none => simp [verify_chunkstore]
  | some cs =>
    simp only [verify_chunkstore]
    rw [verify_chunks_spec]
    by_cases hsz : cs.csd.length = len
    · simp [hsz, List.all_eq_true]
    · simp [hsz]

theorem depot_pass_fst_iff (decomp : List Nat → Option (List Nat))
    (sha1 : List Nat → List Nat) (l : List (Int × Option ChunkStore)) :
    (depot_pass decomp sha1 l).1 = true ↔
      ∀ e ∈ l, 0 ≤ e.1 →
        (verify_chunkstore decomp sha1 e.2 e.1.toNat).isSome = true := by
  induction l with
  | nil => simp [depot_pass]
  | cons e l ih =>
    obtain ⟨len, opn⟩ := e
    simp only [depot_pass]
    by_cases hlen : (0 : Int) ≤ len
    · simp only [if_pos hlen]
      cases hv : verify_chunkstore decomp sha1 opn len.toNat with
      | none =>
        simp only [List.mem_cons]
        constructor
        · intro hfalse
          cases hfalse
        · intro hforall
          have := hforall (len, opn) (Or.inl rfl) hlen
          rw [hv] at this
          cases this
      | some c =>
        simp only [List.mem_cons]
        rw [ih]
        constructor
        · intro hf x hx hle
          rcases hx with hx | hx
          · subst hx
            rw [hv]
            rfl
          · exact hf x hx hle
        · intro hf x hx hle
          exact hf x (Or.inr hx) hle
    · simp only [if_neg hlen, List.mem_cons]
      rw [ih]
      constructor
      · intro hf x hx hle
        rcases hx with hx | hx
        · subst hx
          exact absurd hle hlen
        · exact hf x hx hle
      · intro hf x hx hle
        exact hf x (Or.inr hx) hle

/-- C7 (amended): the verifier prints the final "Depot files match SKU!"
line iff every chunkstore of every depot whose SKU length is non-negative
opened successfully, has the SKU-recorded CSD size, and has every chunk
pass decompression/verification.  A reported `unique_chunks` mismatch
against a loaded depot manifest does *not* suppress the line (see the
counterexample); and the verify command completes and exits 0 regardless —
`VerifyBackup::run` catches any error and only prints it. -/
theorem verify_final_line_iff (decomp : List Nat → Option (List Nat))
    (sha1 : List Nat → List Nat)
    (depots : List (Option MMeta × List (Int × Option ChunkStore))) :
    (verify_backup decomp sha1 depots).1 = true ↔
      ∀ d ∈ depots, ∀ e ∈ d.2, 0 ≤ e.1 →
        ∃ cs, e.2 = some cs ∧ cs.csd.length = e.1.toNat ∧
          ∀ ch ∈ cs.csm.chunks, ((chunk_data decomp sha1 cs ch.1).1).isOk = true := by
  have hfst : (verify_backup decomp sha1 depots).1 =
      depots.all fun d => (depot_pass decomp sha1 d.2).1 := by
    simp only [verify_backup]
    rw [List.map_map, all_map_general]
    rfl
  rw [hfst, List.all_eq_true]
  constructor
  · intro h d hd e he hle
    have hdp := h d hd
    exact (verify_chunkstore_isSome_iff decomp sha1 e.2 e.1.toNat).mp
      ((depot_pass_fst_iff decomp sha1 d.2).mp hdp e he hle)
  · intro h d hd
    refine (depot_pass_fst_iff decomp sha1 d.2).mpr ?_
    intro e he hle
    exact (verify_chunkstore_isSome_iff decomp sha1 e.2 e.1.toNat).mpr (h d hd e he hle)

end Tev
